import Mathlib

/-!
Verification of the runelog experiment tracker (`src/runelog/runelog.py`)
against its specification.

The tracker stores all state on the filesystem under two directory trees:
`.mlruns/<experiment_id>/...` for experiments and runs, and
`.registry/<model_name>/<version>/...` for the model registry.  We embed
that on-disk state shallowly: a directory listing becomes an association
list (in creation order, matching a deterministic `os.listdir`), a JSON
file becomes a structure field, and every method of the `RuneLog` class
becomes a pure function on the state, returning `Except` where the Python
code raises exceptions.  Random run ids (`uuid.uuid4().hex[:8]`) are taken
as an explicit argument, externalising the only source of nondeterminism.
-/

set_option autoImplicit false

namespace Runelog

/-- A scalar JSON value, as stored in `params/<key>.json` and
`metrics/<key>.json` files (the `"value"` field). -/
inductive JsonVal where
  | num (q : Rat)
  | str (s : String)
  | bool (b : Bool)
  deriving DecidableEq, Repr

/-- The exceptions raised by `runelog.exceptions` that the embedded
operations can surface.  `StorageError` stands for an OS-level I/O failure
(e.g. writing into a run directory that does not exist). -/
inductive Exc where
  | NoActiveRun
  | ArtifactNotFound (path : String)
  | RunNotFound (runId : String)
  | ModelNotFound (name : String)
  | NoVersionsFound (name : String)
  | ModelVersionNotFound (name : String) (version : String)
  | ExperimentNotFound (id : String)
  | StorageError
  deriving DecidableEq, Repr

/-- A directory listing mapping names to contents, in creation order. -/
abbrev AssocL (α : Type) : Type := List (String × α)

/-- First value bound to key `k`, i.e. the file/directory named `k`. -/
def lookupA {α : Type} : AssocL α → String → Option α
  | [], _ => none
  | (k, v) :: rest, key => if k = key then some v else lookupA rest key

/-- The names present in a directory listing. -/
def keysA {α : Type} (l : AssocL α) : List String :=
  l.map Prod.fst

/-- Whether an entry named `k` exists (`os.path.exists`). -/
def hasKey {α : Type} (l : AssocL α) (k : String) : Bool :=
  (lookupA l k).isSome

/-- Rewrite the contents of every entry named `k` in place (a no-op when
absent); directory listings hold at most one entry per name. -/
def updateA {α : Type} : AssocL α → String → (α → α) → AssocL α
  | [], _, _ => []
  | (a, b) :: t, k, f =>
    if a = k then (a, f b) :: updateA t k f else (a, b) :: updateA t k f

/-- Write file `k` with contents `v`: overwrite in place when it exists,
otherwise create it (appearing at the end of the listing). -/
def writeA {α : Type} (l : AssocL α) (k : String) (v : α) : AssocL α :=
  if hasKey l k then updateA l k (fun _ => v) else l ++ [(k, v)]

/-- Python `dict.update` / `**` merge: apply each binding of `upd` in
order to `old` (overwrite when present, append when new). -/
def dictUpdate {α : Type} (old upd : AssocL α) : AssocL α :=
  upd.foldl (fun acc kv => writeA acc kv.1 kv.2) old

/-- The state of one run directory
`.mlruns/<experiment_id>/<run_id>/`: `meta.json`'s status field, the
`params/` and `metrics/` listings (key to logged value), and the
`artifacts/` listing (file name to file contents). -/
structure RunData where
  status : String
  params : AssocL JsonVal
  metrics : AssocL JsonVal
  artifacts : AssocL String
  deriving DecidableEq, Repr

/-- One experiment directory `.mlruns/<experiment_id>/`: the name stored
in `meta.json` when that file exists, and the run subdirectories. -/
structure ExpDir where
  meta : Option String
  runs : AssocL RunData
  deriving DecidableEq, Repr

/-- Contents of a model version's `meta.json` in the registry. -/
structure ModelMeta where
  model_name : String
  version : String
  source_run_id : String
  registration_timestamp : String
  tags : AssocL String
  deriving DecidableEq, Repr

/-- One version directory `.registry/<model_name>/<version>/`: the copied
`model.joblib` payload (an opaque blob) and `meta.json`.  `register_model`
writes both files together, so a version directory always carries its
payload. -/
structure VersionData where
  payload : String
  meta : ModelMeta
  deriving DecidableEq, Repr

/-- The version subdirectories of one registered model, keyed by the
integer version number (directory name `toString n`; `register_model`
only ever creates such canonical digit-string names). -/
abbrev VersionsL : Type := List (Nat × VersionData)

/-- The whole on-disk state plus the tracker's in-memory
`_active_experiment_id` / `_active_run_id` fields. -/
structure Store where
  mlruns : AssocL ExpDir
  registry : AssocL VersionsL
  activeRun : Option (String × String)
  deriving DecidableEq, Repr

/-- A freshly initialised tracker over an empty root directory. -/
def emptyStore : Store :=
  { mlruns := [], registry := [], activeRun := none }

/-- Scan of `get_or_create_experiment`: the first experiment directory
whose `meta.json` exists and records the given name. -/
def findByName : AssocL ExpDir → String → Option String
  | [], _ => none
  | (eid, d) :: rest, name =>
    match d.meta with
    | some n => if n = name then some eid else findByName rest name
    | none => findByName rest name

/-- Overwrite `meta.json` of experiment `eid` with the given name
(`os.makedirs(..., exist_ok=True)` keeps existing run directories). -/
def setMeta (l : AssocL ExpDir) (eid : String) (name : String) : AssocL ExpDir :=
  updateA l eid (fun d => { d with meta := some name })

/-- `RuneLog.get_or_create_experiment`: return the id of an existing
experiment with this name, else allocate `str(len(os.listdir(mlruns)))`
as the new id and write its `meta.json`. -/
def getOrCreateExperiment (s : Store) (name : String) : String × Store :=
  match findByName s.mlruns name with
  | some eid => (eid, s)
  | none =>
    let newId := toString s.mlruns.length
    if hasKey s.mlruns newId then
      (newId, { s with mlruns := setMeta s.mlruns newId name })
    else
      (newId, { s with mlruns := s.mlruns ++ [(newId, { meta := some name, runs := [] })] })

/-- A run directory as just created by `start_run`: status `RUNNING`,
empty `params/`, `metrics/`, `artifacts/`. -/
def newRun : RunData :=
  { status := "RUNNING", params := [], metrics := [], artifacts := [] }

/-- Create the run's directories and write its `meta.json` with status
`RUNNING`; an already existing run directory keeps its files
(`exist_ok=True`) but gets its `meta.json` rewritten. -/
def markRunning (l : AssocL RunData) (rid : String) : AssocL RunData :=
  if hasKey l rid then updateA l rid (fun r => { r with status := "RUNNING" }) else l ++ [(rid, newRun)]

/-- `os.makedirs` of an experiment directory that `start_run` targets:
created without any `meta.json` when absent. -/
def ensureDir (l : AssocL ExpDir) (eid : String) : AssocL ExpDir :=
  if hasKey l eid then l else l ++ [(eid, { meta := none, runs := [] })]

/-- Entry half of `RuneLog.start_run` (up to the `yield`): ensure the
default experiment directory `0` exists, record the active experiment and
run ids, create the run's directories, and persist status `RUNNING`.
The fresh run id `rid` (`uuid4().hex[:8]`) is passed explicitly. -/
def startRun (s : Store) (eid rid : String) : Store :=
  let s0 := if hasKey s.mlruns "0" then s else (getOrCreateExperiment s "default").2
  let ml := ensureDir s0.mlruns eid
  { s0 with
    mlruns := updateA ml eid (fun d => { d with runs := markRunning d.runs rid }),
    activeRun := some (eid, rid) }

/-- The `finally` block of `RuneLog.start_run`: rewrite the run's
`meta.json` with status `FINISHED` and clear the active ids.  Because the
`try` around the `yield` has no `except` clause, this same block runs on
every scope exit — normal completion and unrecovered error alike. -/
def finishRun (s : Store) (eid rid : String) : Store :=
  { s with
    mlruns := updateA s.mlruns eid
      (fun d => { d with runs := updateA d.runs rid (fun r => { r with status := "FINISHED" }) }),
    activeRun := none }

/-- Whether the active run's directory exists on disk. -/
def runExists (l : AssocL ExpDir) (eid rid : String) : Bool :=
  match lookupA l eid with
  | some d => hasKey d.runs rid
  | none => false

/-- Apply `f` to the run directory `.mlruns/<eid>/<rid>/`. -/
def modifyRun (l : AssocL ExpDir) (eid rid : String) (f : RunData → RunData) : AssocL ExpDir :=
  updateA l eid (fun d => { d with runs := updateA d.runs rid f })

/-- `RuneLog.log_param`: `NoActiveRun` without an active run, else write
`params/<key>.json` in the active run's directory. -/
def logParam (s : Store) (k : String) (v : JsonVal) : Except Exc Store :=
  match s.activeRun with
  | none => Except.error Exc.NoActiveRun
  | some (eid, rid) =>
    if runExists s.mlruns eid rid then
      Except.ok { s with mlruns := modifyRun s.mlruns eid rid (fun r => { r with params := writeA r.params k v }) }
    else Except.error Exc.StorageError

/-- `RuneLog.log_metric`: as `log_param`, into `metrics/<key>.json`. -/
def logMetric (s : Store) (k : String) (v : JsonVal) : Except Exc Store :=
  match s.activeRun with
  | none => Except.error Exc.NoActiveRun
  | some (eid, rid) =>
    if runExists s.mlruns eid rid then
      Except.ok { s with mlruns := modifyRun s.mlruns eid rid (fun r => { r with metrics := writeA r.metrics k v }) }
    else Except.error Exc.StorageError

/-- The base name of a local path (`shutil.copy` into a directory keeps
the file's base name). -/
def baseName (p : String) : String :=
  (p.splitOn "/").getLastD p

/-- `RuneLog.log_artifact`: `NoActiveRun` without an active run; then
`ArtifactNotFound` when `local_path` does not exist on the local
filesystem `fs`; else copy the file into `artifacts/`. -/
def logArtifact (s : Store) (fs : AssocL String) (localPath : String) : Except Exc Store :=
  match s.activeRun with
  | none => Except.error Exc.NoActiveRun
  | some (eid, rid) =>
    match lookupA fs localPath with
    | none => Except.error (Exc.ArtifactNotFound localPath)
    | some content =>
      if runExists s.mlruns eid rid then
        Except.ok { s with mlruns := modifyRun s.mlruns eid rid (fun r => { r with artifacts := writeA r.artifacts (baseName localPath) content }) }
      else Except.error Exc.StorageError

/-- `RuneLog.log_model`: `NoActiveRun` without an active run, else store
the serialised model blob as `artifacts/<name>`. -/
def logModel (s : Store) (blob : String) (name : String) : Except Exc Store :=
  match s.activeRun with
  | none => Except.error Exc.NoActiveRun
  | some (eid, rid) =>
    if runExists s.mlruns eid rid then
      Except.ok { s with mlruns := modifyRun s.mlruns eid rid (fun r => { r with artifacts := writeA r.artifacts name blob }) }
    else Except.error Exc.StorageError

/-- The scan shared by `get_run_details`, `get_run` and `register_model`:
the first experiment directory containing a run directory `rid`. -/
def findRun : AssocL ExpDir → String → Option RunData
  | [], _ => none
  | (_, d) :: rest, rid =>
    match lookupA d.runs rid with
    | some r => some r
    | none => findRun rest rid

/-- The dictionary `get_run_details` returns. -/
structure RunDetails where
  params : AssocL JsonVal
  metrics : AssocL JsonVal
  artifacts : List String
  deriving DecidableEq, Repr

/-- `RuneLog.get_run_details`: locate the run by id across all
experiments; `none` when not found. -/
def getRunDetails (s : Store) (rid : String) : Option RunDetails :=
  (findRun s.mlruns rid).map
    (fun r => { params := r.params, metrics := r.metrics, artifacts := keysA r.artifacts })

/-- The persisted status of run `rid`, read back from disk. -/
def runStatus (s : Store) (rid : String) : Option String :=
  (findRun s.mlruns rid).map RunData.status

/-- The summary row `get_run` builds:
`{"run_id": rid, **prefixed_params, **metrics}`. -/
def runRow (rid : String) (r : RunData) : AssocL JsonVal :=
  dictUpdate (dictUpdate [("run_id", JsonVal.str rid)]
    (r.params.map (fun p => ("param_" ++ p.1, p.2)))) r.metrics

/-- `RuneLog.get_run`: the summary row, or `none` when no experiment
contains the run. -/
def getRun (s : Store) (rid : String) : Option (AssocL JsonVal) :=
  (findRun s.mlruns rid).map (runRow rid)

/-- The `run_id` index value of a summary row. -/
def rowRunId (row : AssocL JsonVal) : String :=
  match lookupA row "run_id" with
  | some (JsonVal.str r) => r
  | _ => ""

/-- Rows sorted ascending by their `run_id` index
(`DataFrame.set_index("run_id").sort_index()`). -/
def sortRows : List (AssocL JsonVal) → List (AssocL JsonVal)
  | [] => []
  | row :: rest => insertRow row (sortRows rest)
where
  insertRow (row : AssocL JsonVal) : List (AssocL JsonVal) → List (AssocL JsonVal)
    | [] => [row]
    | r :: rs => if rowRunId row ≤ rowRunId r then row :: r :: rs else r :: insertRow row rs

/-- `RuneLog.load_results`: `ExperimentNotFound` when the experiment
directory does not exist; else one summary row per run subdirectory
(an experiment with zero runs gives the empty table). -/
def loadResults (s : Store) (eid : String) : Except Exc (List (AssocL JsonVal)) :=
  match lookupA s.mlruns eid with
  | none => Except.error (Exc.ExperimentNotFound eid)
  | some d =>
    Except.ok (sortRows ((keysA d.runs).filterMap (fun rid => getRun s rid)))

/-- `max([int(v) for v in versions] or [0])`: the highest existing
version number, `0` when none exist. -/
def maxVersion (l : VersionsL) : Nat :=
  (l.map Prod.fst).foldr max 0

/-- `RuneLog.register_model`: resolve the source run and artifact, then
allocate `max(existing versions) + 1`, copy the payload and write the
version's `meta.json`; returns the new version number as a string. -/
def registerModel (s : Store) (runId artName modelName : String)
    (tags : AssocL String) (ts : String) : Except Exc (String × Store) :=
  match findRun s.mlruns runId with
  | none => Except.error (Exc.RunNotFound runId)
  | some r =>
    match lookupA r.artifacts artName with
    | none => Except.error (Exc.ArtifactNotFound artName)
    | some payload =>
      let versions := (lookupA s.registry modelName).getD []
      let newV := maxVersion versions + 1
      let vd : VersionData :=
        { payload := payload,
          meta := { model_name := modelName, version := toString newV,
                    source_run_id := runId, registration_timestamp := ts, tags := tags } }
      Except.ok (toString newV,
        { s with registry := writeA s.registry modelName (versions ++ [(newV, vd)]) })

/-- Look up a version directory by its name as a string (directory names
are the decimal rendering of the version number). -/
def lookupVersionStr : VersionsL → String → Option VersionData
  | [], _ => none
  | (k, vd) :: rest, v => if toString k = v then some vd else lookupVersionStr rest v

/-- `RuneLog.load_registered_model`: `ModelNotFound` when the model
directory is absent; for `"latest"`, `NoVersionsFound` when no version
directories exist, else resolve `str(max(versions))`; finally
`ModelVersionNotFound` when the resolved version directory is absent. -/
def loadRegisteredModel (s : Store) (modelName versionArg : String) : Except Exc String :=
  match lookupA s.registry modelName with
  | none => Except.error (Exc.ModelNotFound modelName)
  | some versions =>
    if versionArg = "latest" then
      match versions with
      | [] => Except.error (Exc.NoVersionsFound modelName)
      | _ :: _ =>
        let latest := toString (maxVersion versions)
        match lookupVersionStr versions latest with
        | some vd => Except.ok vd.payload
        | none => Except.error (Exc.ModelVersionNotFound modelName latest)
    else
      match lookupVersionStr versions versionArg with
      | some vd => Except.ok vd.payload
      | none => Except.error (Exc.ModelVersionNotFound modelName versionArg)

/-- Apply `f` to the version directory named `v` of a model. -/
def updateVersionStr : VersionsL → String → (VersionData → VersionData) → VersionsL
  | [], _, _ => []
  | (k, vd) :: rest, v, f =>
    if toString k = v then (k, f vd) :: updateVersionStr rest v f
    else (k, vd) :: updateVersionStr rest v f

/-- `RuneLog.add_model_tags`: `ModelVersionNotFound` when the version's
`meta.json` is absent; else merge the given tags into the metadata's tag
map (`meta["tags"].update(tags)`) and rewrite the file: helper applied
to the version's metadata. -/
def mergeMetaTags (tags : AssocL String) (vd : VersionData) : VersionData :=
  { vd with meta := { vd.meta with tags := dictUpdate vd.meta.tags tags } }

/-- `RuneLog.add_model_tags`: `ModelVersionNotFound` when the version's
`meta.json` is absent; else merge the given tags into the tag map of the
version's metadata and rewrite the file in place. -/
def addModelTags (s : Store) (m v : String) (tags : AssocL String) : Except Exc Store :=
  match lookupA s.registry m with
  | none => Except.error (Exc.ModelVersionNotFound m v)
  | some versions =>
    match lookupVersionStr versions v with
    | none => Except.error (Exc.ModelVersionNotFound m v)
    | some _ =>
      Except.ok { s with registry := updateA s.registry m (fun vs => updateVersionStr vs v (mergeMetaTags tags)) }

/-- The version listing of a model (empty when the model is unknown). -/
def versionsOf (s : Store) (m : String) : VersionsL :=
  (lookupA s.registry m).getD []

/-- The version numbers a model currently has, in creation order. -/
def versionNums (s : Store) (m : String) : List Nat :=
  (versionsOf s m).map Prod.fst

/-- Arguments of one `register_model` call (the model name is fixed by
the enclosing sequence). -/
structure RegArgs where
  runId : String
  artName : String
  tags : AssocL String
  ts : String
  deriving DecidableEq, Repr

/-- A sequence of `register_model` calls for one model name, stopping at
the first failure. -/
def registerSeq (s : Store) (m : String) : List RegArgs → Except Exc Store
  | [] => Except.ok s
  | a :: rest =>
    match registerModel s a.runId a.artName m a.tags a.ts with
    | Except.error e => Except.error e
    | Except.ok (_, s1) => registerSeq s1 m rest


/-- Lookup in the merge of two maps: bindings of `ts` win, `old` is the
fallback (the observable content of a Python `dict.update`). -/
def mergeLookup {α : Type} (ts old : AssocL α) (k : String) : Option α :=
  match lookupA ts k with
  | some t => some t
  | none => lookupA old k

/-- The version-1 entry used by the C4 witness. -/
def versionOneData : VersionData :=
  { payload := "blob1",
    meta := { model_name := "m", version := "1", source_run_id := "r1",
              registration_timestamp := "t1", tags := [] } }

/-- The version-2 entry used by the C4 witness. -/
def versionTwoData : VersionData :=
  { payload := "blob2",
    meta := { model_name := "m", version := "2", source_run_id := "r1",
              registration_timestamp := "t2", tags := [] } }

/-- A registry holding versions 1 and 2 of model `m`. -/
def twoVersionStore : Store :=
  { mlruns := [], activeRun := none,
    registry := [("m", [(1, versionOneData), (2, versionTwoData)])] }

/-- The list `[1, 2, ..., n]`: a gap-free 1-based version sequence. -/
def oneTo : Nat → List Nat
  | 0 => []
  | n + 1 => oneTo n ++ [n + 1]

/-- A finished run holding one model artifact. -/
def oneRunData : RunData :=
  { status := "FINISHED", params := [], metrics := [], artifacts := [("model.pkl", "blob1")] }

/-- A store holding one finished run `r1` with a single model artifact. -/
def oneRunStore : Store :=
  { mlruns := [("0", { meta := some "default", runs := [("r1", oneRunData)] })],
    registry := [], activeRun := none }

/-- Two registration calls for model `m` against `oneRunStore`. -/
def twoRegCalls : List RegArgs :=
  [⟨"r1", "model.pkl", [], "t1"⟩, ⟨"r1", "model.pkl", [], "t2"⟩]

/-- The store after the two registrations. -/
def afterTwoRegCalls : Store :=
  match registerSeq oneRunStore "m" twoRegCalls with
  | Except.ok s => s
  | Except.error _ => oneRunStore

/-- How many experiment records carry the given name. -/
def countName : AssocL ExpDir → String → Nat
  | [], _ => 0
  | (_, d) :: t, x => (if d.meta = some x then 1 else 0) + countName t x

/-- Location invariant for a run: every experiment directory other than
`eid` lacks a run directory `rid`, and `eid` exists and maps `rid` to
exactly the run state `r`. -/
def GoodAt (l : AssocL ExpDir) (eid rid : String) (r : RunData) : Prop :=
  (∀ p ∈ l, (p.1 ≠ eid → lookupA p.2.runs rid = none) ∧
    (p.1 = eid → lookupA p.2.runs rid = some r)) ∧
  hasKey l eid = true

/-! ### Generic lemmas about directory listings -/

theorem lookupA_nil {α : Type} (k : String) : lookupA ([] : AssocL α) k = none := rfl

theorem lookupA_cons {α : Type} (a : String) (b : α) (t : AssocL α) (k : String) :
    lookupA ((a, b) :: t) k = if a = k then some b else lookupA t k := rfl

theorem keysA_nil {α : Type} : keysA ([] : AssocL α) = [] := rfl

theorem keysA_cons {α : Type} (p : String × α) (t : AssocL α) :
    keysA (p :: t) = p.1 :: keysA t := rfl

theorem updateA_nil {α : Type} (k : String) (f : α → α) :
    updateA ([] : AssocL α) k f = [] := rfl

theorem updateA_cons {α : Type} (a : String) (b : α) (t : AssocL α) (k : String) (f : α → α) :
    updateA ((a, b) :: t) k f =
      if a = k then (a, f b) :: updateA t k f else (a, b) :: updateA t k f := rfl

theorem lookupA_append_left {α : Type} {l : AssocL α} {k : String} {v : α}
    (l' : AssocL α) (h : lookupA l k = some v) : lookupA (l ++ l') k = some v := by
  induction l with
  | nil => simp [lookupA_nil] at h
  | cons p t ih =>
    obtain ⟨a, b⟩ := p
    by_cases hak : a = k
    · simpa [lookupA_cons, hak] using (by simpa [lookupA_cons, hak] using h : some b = some v)
    · rw [List.cons_append, lookupA_cons, if_neg hak]
      rw [lookupA_cons, if_neg hak] at h
      exact ih h

theorem lookupA_append_right {α : Type} {l : AssocL α} {k : String}
    (l' : AssocL α) (h : lookupA l k = none) : lookupA (l ++ l') k = lookupA l' k := by
  induction l with
  | nil => simp [lookupA_nil]
  | cons p t ih =>
    obtain ⟨a, b⟩ := p
    rw [lookupA_cons] at h
    by_cases hak : a = k
    · simp [hak] at h
    · rw [if_neg hak] at h
      rw [List.cons_append, lookupA_cons, if_neg hak]
      exact ih h

theorem lookupA_eq_none_of_not_mem {α : Type} {l : AssocL α} {k : String}
    (h : k ∉ keysA l) : lookupA l k = none := by
  induction l with
  | nil => rfl
  | cons p t ih =>
    rw [keysA_cons, List.mem_cons] at h
    push_neg at h
    rw [lookupA_cons]
    rw [if_neg (fun he => h.1 he.symm)]
    exact ih h.2

theorem mem_keys_of_lookupA {α : Type} {l : AssocL α} {k : String} {v : α}
    (h : lookupA l k = some v) : k ∈ keysA l := by
  induction l with
  | nil => simp [lookupA_nil] at h
  | cons p t ih =>
    obtain ⟨a, b⟩ := p
    rw [lookupA_cons] at h
    by_cases hak : a = k
    · rw [keysA_cons]; exact hak ▸ List.mem_cons_self a _
    · rw [if_neg hak] at h
      rw [keysA_cons]
      exact List.mem_cons_of_mem _ (ih h)

theorem lookupA_updateA_self {α : Type} (l : AssocL α) (k : String) (f : α → α) :
    lookupA (updateA l k f) k = (lookupA l k).map f := by
  induction l with
  | nil => rfl
  | cons p t ih =>
    obtain ⟨a, b⟩ := p
    rw [updateA_cons]
    by_cases hak : a = k
    · rw [if_pos hak, lookupA_cons, if_pos hak, lookupA_cons, if_pos hak]
      rfl
    · rw [if_neg hak, lookupA_cons, if_neg hak, lookupA_cons, if_neg hak]
      exact ih

theorem lookupA_updateA_ne {α : Type} (l : AssocL α) {k k' : String} (f : α → α)
    (h : k' ≠ k) : lookupA (updateA l k f) k' = lookupA l k' := by
  induction l with
  | nil => rfl
  | cons p t ih =>
    obtain ⟨a, b⟩ := p
    rw [updateA_cons]
    by_cases hak : a = k
    · have hak' : ¬a = k' := fun he => h (he ▸ hak)
      rw [if_pos hak, lookupA_cons, if_neg hak', lookupA_cons, if_neg hak']
      exact ih
    · rw [if_neg hak]
      by_cases hak' : a = k'
      · rw [lookupA_cons, if_pos hak', lookupA_cons, if_pos hak']
      · rw [lookupA_cons, if_neg hak', lookupA_cons, if_neg hak']
        exact ih

theorem keysA_updateA {α : Type} (l : AssocL α) (k : String) (f : α → α) :
    keysA (updateA l k f) = keysA l := by
  induction l with
  | nil => rfl
  | cons p t ih =>
    obtain ⟨a, b⟩ := p
    rw [updateA_cons]
    by_cases hak : a = k
    · rw [if_pos hak, keysA_cons, keysA_cons, ih]
    · rw [if_neg hak, keysA_cons, keysA_cons, ih]

theorem keysA_append {α : Type} (l l' : AssocL α) :
    keysA (l ++ l') = keysA l ++ keysA l' := by
  simp [keysA]

theorem hasKey_eq_false_iff {α : Type} (l : AssocL α) (k : String) :
    hasKey l k = false ↔ lookupA l k = none := by
  unfold hasKey
  cases lookupA l k <;> simp

theorem hasKey_eq_true_iff {α : Type} (l : AssocL α) (k : String) :
    hasKey l k = true ↔ ∃ v, lookupA l k = some v := by
  unfold hasKey
  cases lookupA l k <;> simp

theorem lookupA_writeA_self {α : Type} (l : AssocL α) (k : String) (v : α) :
    lookupA (writeA l k v) k = some v := by
  unfold writeA
  by_cases h : hasKey l k
  · rw [if_pos h, lookupA_updateA_self]
    obtain ⟨w, hw⟩ := (hasKey_eq_true_iff l k).mp h
    rw [hw]; rfl
  · rw [if_neg h]
    have hnone : lookupA l k = none :=
      (hasKey_eq_false_iff l k).mp (Bool.eq_false_iff.mpr h)
    rw [lookupA_append_right _ hnone, lookupA_cons, if_pos rfl]

theorem lookupA_writeA_ne {α : Type} (l : AssocL α) {k k' : String} (v : α)
    (h : k' ≠ k) : lookupA (writeA l k v) k' = lookupA l k' := by
  unfold writeA
  by_cases hk : hasKey l k
  · rw [if_pos hk, lookupA_updateA_ne _ _ h]
  · rw [if_neg hk]
    cases hl : lookupA l k' with
    | some w => rw [lookupA_append_left _ hl]
    | none =>
      rw [lookupA_append_right _ hl, lookupA_cons, if_neg (fun he => h he.symm)]
      rfl

theorem keysA_writeA_of_hasKey {α : Type} {l : AssocL α} {k : String} (v : α)
    (h : hasKey l k = true) : keysA (writeA l k v) = keysA l := by
  rw [writeA, if_pos h, keysA_updateA]

theorem keysA_writeA_of_not_hasKey {α : Type} {l : AssocL α} {k : String} (v : α)
    (h : hasKey l k = false) : keysA (writeA l k v) = keysA l ++ [k] := by
  rw [writeA, h]
  simp [keysA_append, keysA]


theorem lookupA_dictUpdate {α : Type} (ts : AssocL α) (hnd : (keysA ts).Nodup) :
    ∀ (old : AssocL α) (k : String),
      lookupA (dictUpdate old ts) k = mergeLookup ts old k := by
  induction ts with
  | nil => intro old k; rfl
  | cons p rest ih =>
    obtain ⟨k0, v0⟩ := p
    intro old k
    rw [keysA_cons, List.nodup_cons] at hnd
    have hstep : dictUpdate old ((k0, v0) :: rest) = dictUpdate (writeA old k0 v0) rest := rfl
    rw [hstep, ih hnd.2]
    unfold mergeLookup
    by_cases hkk : k = k0
    · subst hkk
      rw [lookupA_eq_none_of_not_mem hnd.1]
      rw [lookupA_cons, if_pos rfl, lookupA_writeA_self]
    · rw [lookupA_cons, if_neg (fun he => hkk he.symm)]
      cases hrest : lookupA rest k with
      | some t => rfl
      | none => simp only [lookupA_writeA_ne _ _ hkk]

/-! ### Lemmas about the registry's version listings -/

theorem foldr_max_mem : ∀ {xs : List Nat}, xs ≠ [] → xs.foldr max 0 ∈ xs := by
  intro xs
  induction xs with
  | nil => intro h; exact absurd rfl h
  | cons x t ih =>
    intro _
    cases t with
    | nil => simp [Nat.max_zero]
    | cons y u =>
      rw [List.foldr_cons]
      rcases max_choice x ((y :: u).foldr max 0) with h | h
      · rw [h]; exact List.mem_cons_self _ _
      · rw [h]; exact List.mem_cons_of_mem _ (ih (by simp))

theorem maxVersion_mem {l : VersionsL} (h : l ≠ []) : maxVersion l ∈ l.map Prod.fst := by
  unfold maxVersion
  exact foldr_max_mem (by simpa using h)

theorem lookupVersionStr_of_mem_key {l : VersionsL} {k : Nat}
    (h : k ∈ l.map Prod.fst) : ∃ vd, lookupVersionStr l (toString k) = some vd := by
  induction l with
  | nil => simp at h
  | cons p t ih =>
    obtain ⟨k0, vd0⟩ := p
    by_cases he : toString k0 = toString k
    · exact ⟨vd0, by simp [lookupVersionStr, he]⟩
    · have h2 : k = k0 ∨ k ∈ t.map Prod.fst := by simpa using h
      rcases h2 with h1 | h1
      · exact absurd (by rw [h1]) he
      · obtain ⟨vd, hvd⟩ := ih h1
        exact ⟨vd, by simp [lookupVersionStr, he, hvd]⟩

/-! ### Claim theorems -/

/-- C9: with no active run (in particular after the `start_run` scope has
exited, which clears the tracker's active ids), `log_param`, `log_metric`,
`log_artifact` and `log_model` all raise `NoActiveRun` before writing
anything: the error result carries no updated store, so the state is
untouched. -/
theorem closed_handle_logging_fails (s : Store) (fs : AssocL String)
    (k path name blob : String) (v : JsonVal) (h : s.activeRun = none) :
    logParam s k v = Except.error Exc.NoActiveRun ∧
    logMetric s k v = Except.error Exc.NoActiveRun ∧
    logArtifact s fs path = Except.error Exc.NoActiveRun ∧
    logModel s blob name = Except.error Exc.NoActiveRun := by
  refine ⟨?_, ?_, ?_, ?_⟩ <;> simp [logParam, logMetric, logArtifact, logModel, h]

/-- Witness for C9, at the state left behind by a completed run scope. -/
theorem closed_handle_logging_fails_witness :
    (finishRun (startRun emptyStore "0" "ab12cd34") "0" "ab12cd34").activeRun = none ∧
    (logParam (finishRun (startRun emptyStore "0" "ab12cd34") "0" "ab12cd34") "lr" (JsonVal.str "x") = Except.error Exc.NoActiveRun ∧
     logMetric (finishRun (startRun emptyStore "0" "ab12cd34") "0" "ab12cd34") "lr" (JsonVal.str "x") = Except.error Exc.NoActiveRun ∧
     logArtifact (finishRun (startRun emptyStore "0" "ab12cd34") "0" "ab12cd34") [] "/no/such/file" = Except.error Exc.NoActiveRun ∧
     logModel (finishRun (startRun emptyStore "0" "ab12cd34") "0" "ab12cd34") "blob" "model.pkl" = Except.error Exc.NoActiveRun) :=
  ⟨rfl, closed_handle_logging_fails _ [] "lr" "/no/such/file" "model.pkl" "blob" (JsonVal.str "x") rfl⟩

/-- C7: with an open run, `log_artifact` on a path absent from the local
filesystem fails with `ArtifactNotFound`; the error result carries no
updated store, so the run's params, metrics, artifacts and status are
untouched — no partial write occurs. -/
theorem log_artifact_missing_fails (s : Store) (fs : AssocL String)
    (path eid rid : String) (hact : s.activeRun = some (eid, rid))
    (hfs : lookupA fs path = none) :
    logArtifact s fs path = Except.error (Exc.ArtifactNotFound path) := by
  simp [logArtifact, hact, hfs]

/-- Witness for C7, inside a freshly opened run with an empty filesystem. -/
theorem log_artifact_missing_fails_witness :
    (startRun emptyStore "0" "ab12cd34").activeRun = some ("0", "ab12cd34") ∧
    lookupA ([] : AssocL String) "/no/such/file" = none ∧
    logArtifact (startRun emptyStore "0" "ab12cd34") [] "/no/such/file" =
      Except.error (Exc.ArtifactNotFound "/no/such/file") :=
  ⟨rfl, rfl, log_artifact_missing_fails _ [] "/no/such/file" "0" "ab12cd34" rfl rfl⟩

/-- C8: `load_results` raises `ExperimentNotFound` exactly when the
experiment's directory does not exist (the code's own existence notion,
`os.path.exists` on `.mlruns/<id>`), and an existing experiment with zero
run directories yields the empty table rather than an error. -/
theorem load_results_not_found_iff (s : Store) (eid : String) :
    (loadResults s eid = Except.error (Exc.ExperimentNotFound eid) ↔
      lookupA s.mlruns eid = none) ∧
    (∀ d, lookupA s.mlruns eid = some d → d.runs = [] →
      loadResults s eid = Except.ok []) := by
  constructor
  · constructor
    · intro h
      cases hl : lookupA s.mlruns eid with
      | none => rfl
      | some d => simp [loadResults, hl] at h
    · intro h
      simp [loadResults, h]
  · intro d hd hr
    simp [loadResults, hd, hr, keysA, sortRows]

/-- Witness for C8: an empty experiment gives an empty table, and an
unknown id errors. -/
theorem load_results_not_found_iff_witness :
    loadResults { mlruns := [("7", { meta := some "e", runs := [] })], registry := [], activeRun := none } "7" = Except.ok [] ∧
    loadResults { mlruns := [("7", { meta := some "e", runs := [] })], registry := [], activeRun := none } "8" =
      Except.error (Exc.ExperimentNotFound "8") :=
  ⟨(load_results_not_found_iff _ "7").2 _ rfl rfl,
   (load_results_not_found_iff _ "8").1.mpr rfl⟩

/-- C6: error classification of `load_registered_model`.  `ModelNotFound`
exactly when the model's registry directory is absent; `NoVersionsFound`
exactly when the model exists with zero version directories and
`"latest"` was requested; `ModelVersionNotFound` exactly when a specific
(non-`"latest"`) requested version's directory is absent.  (A version
directory written by `register_model` always contains `model.joblib`, so
version existence coincides with the code's `os.path.exists` check.) -/
theorem load_model_error_cases (s : Store) (m v : String) :
    (loadRegisteredModel s m v = Except.error (Exc.ModelNotFound m) ↔
      lookupA s.registry m = none) ∧
    (loadRegisteredModel s m v = Except.error (Exc.NoVersionsFound m) ↔
      (lookupA s.registry m = some [] ∧ v = "latest")) ∧
    ((∃ w, loadRegisteredModel s m v = Except.error (Exc.ModelVersionNotFound m w)) ↔
      (v ≠ "latest" ∧ ∃ versions, lookupA s.registry m = some versions ∧
        lookupVersionStr versions v = none)) := by
  cases hreg : lookupA s.registry m with
  | none =>
    refine ⟨by simp [loadRegisteredModel, hreg], by simp [loadRegisteredModel, hreg], ?_⟩
    simp [loadRegisteredModel, hreg]
  | some versions =>
    by_cases hv : v = "latest"
    · subst hv
      cases versions with
      | nil =>
        refine ⟨by simp [loadRegisteredModel, hreg], by simp [loadRegisteredModel, hreg], ?_⟩
        simp [loadRegisteredModel, hreg]
      | cons p t =>
        obtain ⟨vd, hvd⟩ := lookupVersionStr_of_mem_key
          (maxVersion_mem (l := p :: t) (by simp))
        refine ⟨by simp [loadRegisteredModel, hreg, hvd], by simp [loadRegisteredModel, hreg, hvd], ?_⟩
        simp [loadRegisteredModel, hreg, hvd]
    · cases hlook : lookupVersionStr versions v with
      | some vd =>
        refine ⟨by simp [loadRegisteredModel, hreg, hv, hlook], by simp [loadRegisteredModel, hreg, hv, hlook], ?_⟩
        simp [loadRegisteredModel, hreg, hv, hlook]
      | none =>
        refine ⟨by simp [loadRegisteredModel, hreg, hv, hlook], by simp [loadRegisteredModel, hreg, hv, hlook], ?_⟩
        constructor
        · intro _
          exact ⟨hv, versions, rfl, hlook⟩
        · intro _
          exact ⟨v, by simp [loadRegisteredModel, hreg, hv, hlook]⟩

/-- Witness for C6: exercising the `ModelNotFound` direction concretely. -/
theorem load_model_error_cases_witness :
    loadRegisteredModel emptyStore "nope" "latest" =
      Except.error (Exc.ModelNotFound "nope") :=
  (load_model_error_cases emptyStore "nope" "latest").1.mpr rfl

/-- Version-directory lookup by name succeeds on the entry holding key
`k` when directory names are distinct (as they are on a filesystem). -/
theorem lookupVersionStr_names_nodup {l : VersionsL} {k : Nat} {vd : VersionData}
    (hnd : (l.map (fun e => toString e.1)).Nodup) (hmem : (k, vd) ∈ l) :
    lookupVersionStr l (toString k) = some vd := by
  induction l with
  | nil => simp at hmem
  | cons p t ih =>
    obtain ⟨k0, vd0⟩ := p
    rw [List.map_cons, List.nodup_cons] at hnd
    by_cases he : toString k0 = toString k
    · rcases List.mem_cons.mp hmem with h1 | h1
      · injection h1 with hk hv
        subst hk
        subst hv
        simp [lookupVersionStr]
      · have hin : toString k0 ∈ List.map (fun e => toString e.1) t := by
          rw [he]
          exact List.mem_map_of_mem _ h1
        exact absurd hin hnd.1
    · rcases List.mem_cons.mp hmem with h1 | h1
      · injection h1 with hk hv
        exact absurd (by rw [hk]) he
      · simp only [lookupVersionStr, if_neg he]
        exact ih hnd.2 h1

/-- C4: for a model with at least one registered version, loading
`"latest"` returns the payload stored at the highest-numbered version.
Version directory names are distinct (filesystem names are unique). -/
theorem load_latest_returns_max (s : Store) (m : String) (versions : VersionsL)
    (vd : VersionData) (hreg : lookupA s.registry m = some versions)
    (hnd : (versions.map (fun e => toString e.1)).Nodup)
    (hmem : (maxVersion versions, vd) ∈ versions) :
    loadRegisteredModel s m "latest" = Except.ok vd.payload := by
  cases versions with
  | nil => simp at hmem
  | cons p t =>
    have hl := lookupVersionStr_names_nodup hnd hmem
    simp [loadRegisteredModel, hreg, hl]




/-- Witness for C4: after versions 1 and 2, `"latest"` yields the
version-2 payload. -/
theorem load_latest_returns_max_witness :
    loadRegisteredModel twoVersionStore "m" "latest" = Except.ok "blob2" :=
  load_latest_returns_max twoVersionStore "m" [(1, versionOneData), (2, versionTwoData)]
    versionTwoData rfl (by decide) (by decide)


theorem foldr_max_append_singleton (l : List Nat) (a : Nat) :
    (l ++ [a]).foldr max 0 = max (l.foldr max 0) a := by
  induction l with
  | nil => simp [Nat.max_comm]
  | cons x t ih =>
    rw [List.cons_append, List.foldr_cons, ih, List.foldr_cons, Nat.max_assoc]

theorem foldr_max_oneTo (n : Nat) : (oneTo n).foldr max 0 = n := by
  induction n with
  | zero => rfl
  | succ k ih =>
    rw [oneTo, foldr_max_append_singleton, ih]
    exact Nat.max_eq_right (Nat.le_succ k)

/-- One successful `register_model` call, starting from version numbers
`[1..n]`, returns `str(max + 1) = str(n+1)` and leaves `[1..n+1]`. -/
theorem registerModel_step {s : Store} {rid art m : String} {tags : AssocL String}
    {ts : String} {n : Nat} {v : String} {s' : Store}
    (hkeys : versionNums s m = oneTo n)
    (h : registerModel s rid art m tags ts = Except.ok (v, s')) :
    v = toString (maxVersion (versionsOf s m) + 1) ∧
    maxVersion (versionsOf s m) = n ∧
    versionNums s' m = oneTo (n + 1) := by
  have hmax : maxVersion (versionsOf s m) = n := by
    have : (versionsOf s m).map Prod.fst = oneTo n := hkeys
    unfold maxVersion
    rw [this]
    exact foldr_max_oneTo n
  cases hfr : findRun s.mlruns rid with
  | none => simp [registerModel, hfr] at h
  | some r =>
    cases hart : lookupA r.artifacts art with
    | none => simp [registerModel, hfr, hart] at h
    | some payload =>
      simp only [registerModel, hfr, hart, Except.ok.injEq, Prod.mk.injEq] at h
      obtain ⟨hv, hs⟩ := h
      refine ⟨hv.symm, hmax, ?_⟩
      unfold versionNums versionsOf
      rw [← hs]
      simp only [lookupA_writeA_self, Option.getD_some, List.map_append,
        List.map_cons, List.map_nil]
      have hmax2 : maxVersion ((lookupA s.registry m).getD []) = n := hmax
      rw [hmax2]
      have hkk : ((lookupA s.registry m).getD []).map Prod.fst = oneTo n := hkeys
      rw [hkk]
      rfl

/-- A failed-free sequence of registrations grows the version list from
`[1..n]` to `[1..n + #calls]`. -/
theorem registerSeq_keys {m : String} : ∀ (args : List RegArgs) (s : Store)
    (n : Nat) (s' : Store), versionNums s m = oneTo n →
    registerSeq s m args = Except.ok s' →
    versionNums s' m = oneTo (n + args.length) := by
  intro args
  induction args with
  | nil =>
    intro s n s' hk h
    simp only [registerSeq, Except.ok.injEq] at h
    subst h
    simpa using hk
  | cons a rest ih =>
    intro s n s' hk h
    unfold registerSeq at h
    cases hreg : registerModel s a.runId a.artName m a.tags a.ts with
    | error e => rw [hreg] at h; cases h
    | ok p =>
      obtain ⟨v, s1⟩ := p
      rw [hreg] at h
      have step := registerModel_step hk hreg
      have hrest := ih s1 (n + 1) s' step.2.2 h
      have harith : n + 1 + rest.length = n + (a :: rest).length := by
        simp [List.length_cons]; omega
      rw [harith] at hrest
      exact hrest

/-- C2: starting from an empty registry entry for `m`, any sequence of
`N` successful `register_model` calls leaves exactly the version numbers
`1..N`, and each individual call allocates `max(existing) + 1` (the
returned version string is `str(max + 1)`). -/
theorem register_model_version_allocation :
    (∀ (s : Store) (m rid art : String) (tags : AssocL String) (ts : String)
        (n : Nat) (v : String) (s' : Store),
        versionNums s m = oneTo n →
        registerModel s rid art m tags ts = Except.ok (v, s') →
        v = toString (maxVersion (versionsOf s m) + 1) ∧
        maxVersion (versionsOf s m) = n ∧
        versionNums s' m = oneTo (n + 1)) ∧
    (∀ (s : Store) (m : String) (args : List RegArgs) (s' : Store),
        versionsOf s m = [] → registerSeq s m args = Except.ok s' →
        versionNums s' m = oneTo args.length) := by
  constructor
  · intro s m rid art tags ts n v s' hk h
    exact registerModel_step hk h
  · intro s m args s' hempty h
    have hk : versionNums s m = oneTo 0 := by
      unfold versionNums
      rw [hempty]
      rfl
    have := registerSeq_keys args s 0 s' hk h
    simpa using this





/-- Witness for C2: two successful registrations from an empty registry
leave exactly versions `[1, 2]`. -/
theorem register_model_version_allocation_witness :
    versionsOf oneRunStore "m" = [] ∧
    versionNums afterTwoRegCalls "m" = oneTo 2 :=
  ⟨by rfl, register_model_version_allocation.2 oneRunStore "m" twoRegCalls
    afterTwoRegCalls (by rfl) (by rfl)⟩

theorem lookupVersionStr_updateVersionStr_self (l : VersionsL) (v : String)
    (f : VersionData → VersionData) :
    lookupVersionStr (updateVersionStr l v f) v = (lookupVersionStr l v).map f := by
  induction l with
  | nil => rfl
  | cons p t ih =>
    obtain ⟨k, vd⟩ := p
    by_cases he : toString k = v
    · simp [updateVersionStr, lookupVersionStr, he]
    · simp [updateVersionStr, lookupVersionStr, he, ih]

theorem lookupVersionStr_updateVersionStr_ne (l : VersionsL) {v w : String}
    (f : VersionData → VersionData) (h : w ≠ v) :
    lookupVersionStr (updateVersionStr l v f) w = lookupVersionStr l w := by
  induction l with
  | nil => rfl
  | cons p t ih =>
    obtain ⟨k, vd⟩ := p
    by_cases he : toString k = v
    · have hvw : v ≠ w := fun hc => h hc.symm
      simp [updateVersionStr, lookupVersionStr, he, hvw, ih]
    · by_cases hw : toString k = w
      · simp [updateVersionStr, lookupVersionStr, he, hw, h, ih]
      · simp [updateVersionStr, lookupVersionStr, he, hw, ih]

/-- C10: `add_model_tags` on an existing model version rewrites only the
tag map of that version's metadata: the payload and every other metadata
field are unchanged, the resulting tag map is the old one merged with the
argument (argument keys overwrite, all other keys preserved), and every
other model and version of the registry is untouched.  The argument's
keys are distinct, as a Python `dict` guarantees. -/
theorem add_model_tags_frame (s : Store) (m v : String) (tags : AssocL String)
    (versions : VersionsL) (vd : VersionData)
    (hreg : lookupA s.registry m = some versions)
    (hver : lookupVersionStr versions v = some vd)
    (hnd : (keysA tags).Nodup) :
    ∃ s' vd', addModelTags s m v tags = Except.ok s' ∧
      lookupVersionStr (versionsOf s' m) v = some vd' ∧
      vd'.payload = vd.payload ∧
      vd'.meta.model_name = vd.meta.model_name ∧
      vd'.meta.version = vd.meta.version ∧
      vd'.meta.source_run_id = vd.meta.source_run_id ∧
      vd'.meta.registration_timestamp = vd.meta.registration_timestamp ∧
      (∀ k, lookupA vd'.meta.tags k = mergeLookup tags vd.meta.tags k) ∧
      (∀ m2, m2 ≠ m → lookupA s'.registry m2 = lookupA s.registry m2) ∧
      (∀ w, w ≠ v → lookupVersionStr (versionsOf s' m) w = lookupVersionStr versions w) := by
  have hok : addModelTags s m v tags = Except.ok { s with registry := updateA s.registry m (fun vs => updateVersionStr vs v (mergeMetaTags tags)) } := by
    simp [addModelTags, hreg, hver]
  have hlook : lookupA (updateA s.registry m (fun vs => updateVersionStr vs v (mergeMetaTags tags))) m = some (updateVersionStr versions v (mergeMetaTags tags)) := by
    rw [lookupA_updateA_self, hreg]
    rfl
  refine ⟨_, mergeMetaTags tags vd, hok, ?_, rfl, rfl, rfl, rfl, rfl, ?_, ?_, ?_⟩
  · show lookupVersionStr ((lookupA (updateA s.registry m (fun vs => updateVersionStr vs v (mergeMetaTags tags))) m).getD []) v = some (mergeMetaTags tags vd)
    rw [hlook]
    show lookupVersionStr (updateVersionStr versions v (mergeMetaTags tags)) v = some (mergeMetaTags tags vd)
    rw [lookupVersionStr_updateVersionStr_self, hver]
    rfl
  · intro k
    simpa [mergeMetaTags] using lookupA_dictUpdate tags hnd vd.meta.tags k
  · intro m2 hm2
    exact lookupA_updateA_ne _ _ hm2
  · intro w hw
    show lookupVersionStr ((lookupA (updateA s.registry m (fun vs => updateVersionStr vs v (mergeMetaTags tags))) m).getD []) w = lookupVersionStr versions w
    rw [hlook]
    show lookupVersionStr (updateVersionStr versions v (mergeMetaTags tags)) w = lookupVersionStr versions w
    exact lookupVersionStr_updateVersionStr_ne _ _ hw

/-- Witness for C10: tagging version 2 of the two-version registry. -/
theorem add_model_tags_frame_witness :
    ∃ s' vd', addModelTags twoVersionStore "m" "2" [("owner", "a")] = Except.ok s' ∧
      lookupVersionStr (versionsOf s' "m") "2" = some vd' ∧
      vd'.payload = versionTwoData.payload ∧
      vd'.meta.model_name = versionTwoData.meta.model_name ∧
      vd'.meta.version = versionTwoData.meta.version ∧
      vd'.meta.source_run_id = versionTwoData.meta.source_run_id ∧
      vd'.meta.registration_timestamp = versionTwoData.meta.registration_timestamp ∧
      (∀ k, lookupA vd'.meta.tags k = mergeLookup [("owner", "a")] versionTwoData.meta.tags k) ∧
      (∀ m2, m2 ≠ "m" → lookupA s'.registry m2 = lookupA twoVersionStore.registry m2) ∧
      (∀ w, w ≠ "2" → lookupVersionStr (versionsOf s' "m") w =
        lookupVersionStr [(1, versionOneData), (2, versionTwoData)] w) :=
  add_model_tags_frame twoVersionStore "m" "2" [("owner", "a")]
    [(1, versionOneData), (2, versionTwoData)] versionTwoData rfl (by decide) (by decide)

/-! ### Experiment creation (C3) -/


theorem countName_cons (a : String) (d : ExpDir) (t : AssocL ExpDir) (x : String) :
    countName ((a, d) :: t) x = (if d.meta = some x then 1 else 0) + countName t x := rfl

theorem findByName_cons (a : String) (d : ExpDir) (t : AssocL ExpDir) (x : String) :
    findByName ((a, d) :: t) x =
      match d.meta with
      | some n => if n = x then some a else findByName t x
      | none => findByName t x := rfl

theorem findByName_none_all {l : AssocL ExpDir} {x : String}
    (h : findByName l x = none) : ∀ p ∈ l, p.2.meta ≠ some x := by
  induction l with
  | nil => intro p hp; simp at hp
  | cons q t ih =>
    obtain ⟨a, d⟩ := q
    have hrec : findByName t x = none := by
      cases hm : d.meta with
      | none => simpa [findByName_cons, hm] using h
      | some nm =>
        by_cases hnm : nm = x
        · simp [findByName_cons, hm, hnm] at h
        · simpa [findByName_cons, hm, hnm] using h
    intro p hp
    rcases List.mem_cons.mp hp with h1 | h1
    · subst h1
      intro hmeta
      have hd : d.meta = some x := hmeta
      simp [findByName_cons, hd] at h
    · exact ih hrec p h1

theorem countName_eq_zero {l : AssocL ExpDir} {x : String}
    (h : ∀ p ∈ l, p.2.meta ≠ some x) : countName l x = 0 := by
  induction l with
  | nil => rfl
  | cons q t ih =>
    obtain ⟨a, d⟩ := q
    rw [countName_cons, if_neg (h (a, d) (List.mem_cons_self _ _)),
      ih fun p hp => h p (List.mem_cons_of_mem _ hp)]

theorem findByName_some_pos {l : AssocL ExpDir} {x eid : String}
    (h : findByName l x = some eid) : 1 ≤ countName l x := by
  induction l with
  | nil => cases h
  | cons q t ih =>
    obtain ⟨a, d⟩ := q
    rw [countName_cons]
    cases hm : d.meta with
    | none =>
      have hrec : findByName t x = some eid := by simpa [findByName_cons, hm] using h
      have := ih hrec
      omega
    | some nm =>
      by_cases hnm : nm = x
      · subst hnm
        simp [hm]
      · have hrec : findByName t x = some eid := by simpa [findByName_cons, hm, hnm] using h
        have := ih hrec
        omega

theorem countName_pos_of_mem {l : AssocL ExpDir} {x eid : String} {d : ExpDir}
    (hmem : (eid, d) ∈ l) (hd : d.meta = some x) : 1 ≤ countName l x := by
  induction l with
  | nil => simp at hmem
  | cons q t ih =>
    obtain ⟨a, b⟩ := q
    rw [countName_cons]
    rcases List.mem_cons.mp hmem with h1 | h1
    · injection h1 with h1a h1b
      subst h1b
      simp [hd]
    · have := ih h1
      omega

theorem findByName_of_count_one {l : AssocL ExpDir} {x eid : String} {d : ExpDir}
    (hc : countName l x = 1) (hmem : (eid, d) ∈ l) (hd : d.meta = some x) :
    findByName l x = some eid := by
  induction l with
  | nil => simp at hmem
  | cons q t ih =>
    obtain ⟨a, b⟩ := q
    rw [countName_cons] at hc
    rcases List.mem_cons.mp hmem with h1 | h1
    · injection h1 with h1a h1b
      subst h1a
      subst h1b
      simp [findByName_cons, hd]
    · have hpos := countName_pos_of_mem h1 hd
      by_cases hb : b.meta = some x
      · rw [if_pos hb] at hc
        exfalso
        omega
      · rw [if_neg hb] at hc
        have hcx : countName t x = 1 := by omega
        cases hm : b.meta with
        | none =>
          rw [findByName_cons, hm]
          exact ih hcx h1
        | some nm =>
          have hnm : nm ≠ x := fun he => hb (by rw [hm, he])
          simp only [findByName_cons, hm, if_neg hnm]
          exact ih hcx h1

theorem mem_of_lookupA {α : Type} {l : AssocL α} {k : String} {v : α}
    (h : lookupA l k = some v) : (k, v) ∈ l := by
  induction l with
  | nil => cases h
  | cons p t ih =>
    obtain ⟨a, b⟩ := p
    rw [lookupA_cons] at h
    by_cases hak : a = k
    · rw [if_pos hak] at h
      injection h with hb
      subst hak
      subst hb
      exact List.mem_cons_self _ _
    · rw [if_neg hak] at h
      exact List.mem_cons_of_mem _ (ih h)

theorem updateA_not_mem {α : Type} {l : AssocL α} {k : String} (f : α → α)
    (h : k ∉ keysA l) : updateA l k f = l := by
  induction l with
  | nil => rfl
  | cons p t ih =>
    obtain ⟨a, b⟩ := p
    rw [keysA_cons, List.mem_cons] at h
    push_neg at h
    rw [updateA_cons, if_neg (fun he => h.1 he.symm), ih h.2]

theorem countName_append (l l' : AssocL ExpDir) (x : String) :
    countName (l ++ l') x = countName l x + countName l' x := by
  induction l with
  | nil => simp [countName]
  | cons q t ih =>
    obtain ⟨a, d⟩ := q
    rw [List.cons_append, countName_cons, countName_cons, ih]
    omega

theorem countName_setMeta_one {l : AssocL ExpDir} {id x : String}
    (hnd : (keysA l).Nodup) (hk : hasKey l id = true)
    (hall : ∀ p ∈ l, p.2.meta ≠ some x) :
    countName (setMeta l id x) x = 1 := by
  induction l with
  | nil => simp [hasKey, lookupA] at hk
  | cons q t ih =>
    obtain ⟨a, b⟩ := q
    rw [keysA_cons, List.nodup_cons] at hnd
    by_cases ha : a = id
    · subst ha
      unfold setMeta
      rw [updateA_cons, if_pos rfl, countName_cons]
      have hfb : ({ b with meta := some x } : ExpDir).meta = some x := rfl
      rw [if_pos hfb, updateA_not_mem _ hnd.1,
        countName_eq_zero (fun p hp => hall p (List.mem_cons_of_mem _ hp))]
    · unfold setMeta
      rw [updateA_cons, if_neg ha, countName_cons,
        if_neg (hall (a, b) (List.mem_cons_self _ _))]
      have hk2 : hasKey t id = true := by
        unfold hasKey at hk ⊢
        rw [lookupA_cons, if_neg ha] at hk
        exact hk
      have hrec := ih hnd.2 hk2 (fun p hp => hall p (List.mem_cons_of_mem _ hp))
      unfold setMeta at hrec
      omega

/-- C3: `get_or_create_experiment` is idempotent: calling it twice with
the same name returns the same experiment id both times and leaves
exactly one experiment record with that name.  The hypotheses state the
store's standing invariants: directory names are unique, and at most one
record with the given name exists beforehand (name uniqueness). -/
theorem experiment_creation_idempotent (s : Store) (x : String)
    (hnd : (keysA s.mlruns).Nodup) (hcount : countName s.mlruns x ≤ 1) :
    (getOrCreateExperiment s x).1 =
      (getOrCreateExperiment (getOrCreateExperiment s x).2 x).1 ∧
    countName (getOrCreateExperiment (getOrCreateExperiment s x).2 x).2.mlruns x = 1 := by
  cases hfind : findByName s.mlruns x with
  | some eid =>
    have h1 : getOrCreateExperiment s x = (eid, s) := by
      simp [getOrCreateExperiment, hfind]
    have h2 : getOrCreateExperiment (getOrCreateExperiment s x).2 x = (eid, s) := by
      rw [h1]
      exact h1
    rw [h2, h1]
    exact ⟨rfl, Nat.le_antisymm hcount (findByName_some_pos hfind)⟩
  | none =>
    have hall := findByName_none_all hfind
    cases hk : hasKey s.mlruns (toString s.mlruns.length) with
    | true =>
      have h1 : getOrCreateExperiment s x = (toString s.mlruns.length, { s with mlruns := setMeta s.mlruns (toString s.mlruns.length) x }) := by
        simp [getOrCreateExperiment, hfind, hk]
      have hc1 : countName (setMeta s.mlruns (toString s.mlruns.length) x) x = 1 :=
        countName_setMeta_one hnd hk hall
      obtain ⟨b, hb⟩ := (hasKey_eq_true_iff _ _).mp hk
      have hlook : lookupA (setMeta s.mlruns (toString s.mlruns.length) x) (toString s.mlruns.length) = some { b with meta := some x } := by
        unfold setMeta
        rw [lookupA_updateA_self, hb]
        rfl
      have hfind2 : findByName (setMeta s.mlruns (toString s.mlruns.length) x) x = some (toString s.mlruns.length) :=
        findByName_of_count_one hc1 (mem_of_lookupA hlook) rfl
      have h2 : getOrCreateExperiment { s with mlruns := setMeta s.mlruns (toString s.mlruns.length) x } x = (toString s.mlruns.length, { s with mlruns := setMeta s.mlruns (toString s.mlruns.length) x }) := by
        simp [getOrCreateExperiment, hfind2]
      rw [h1]
      exact ⟨by rw [h2], by rw [h2]; exact hc1⟩
    | false =>
      have h1 : getOrCreateExperiment s x = (toString s.mlruns.length, { s with mlruns := s.mlruns ++ [(toString s.mlruns.length, { meta := some x, runs := [] })] }) := by
        simp [getOrCreateExperiment, hfind, hk]
      have hc1 : countName (s.mlruns ++ [(toString s.mlruns.length, ({ meta := some x, runs := [] } : ExpDir))]) x = 1 := by
        rw [countName_append, countName_eq_zero hall]
        simp [countName]
      have hmem : ((toString s.mlruns.length, ({ meta := some x, runs := [] } : ExpDir))) ∈ s.mlruns ++ [(toString s.mlruns.length, ({ meta := some x, runs := [] } : ExpDir))] :=
        List.mem_append_right _ (List.mem_singleton.mpr rfl)
      have hfind2 : findByName (s.mlruns ++ [(toString s.mlruns.length, ({ meta := some x, runs := [] } : ExpDir))]) x = some (toString s.mlruns.length) :=
        findByName_of_count_one hc1 hmem rfl
      have h2 : getOrCreateExperiment { s with mlruns := s.mlruns ++ [(toString s.mlruns.length, ({ meta := some x, runs := [] } : ExpDir))] } x = (toString s.mlruns.length, { s with mlruns := s.mlruns ++ [(toString s.mlruns.length, ({ meta := some x, runs := [] } : ExpDir))] }) := by
        simp [getOrCreateExperiment, hfind2]
      rw [h1]
      exact ⟨by rw [h2], by rw [h2]; exact hc1⟩

/-- Witness for C3: creating then re-getting an experiment on a fresh
store. -/
theorem experiment_creation_idempotent_witness :
    (keysA emptyStore.mlruns).Nodup ∧ countName emptyStore.mlruns "exp" ≤ 1 ∧
    ((getOrCreateExperiment emptyStore "exp").1 =
      (getOrCreateExperiment (getOrCreateExperiment emptyStore "exp").2 "exp").1 ∧
     countName (getOrCreateExperiment (getOrCreateExperiment emptyStore "exp").2 "exp").2.mlruns "exp" = 1) :=
  ⟨by decide, by decide,
   experiment_creation_idempotent emptyStore "exp" (by decide) (by decide)⟩

/-! ### Run lifecycle (C1, C5) -/


theorem mem_updateA {α : Type} {l : AssocL α} {k : String} {f : α → α}
    {p : String × α} (hp : p ∈ updateA l k f) :
    (p ∈ l ∧ p.1 ≠ k) ∨ ∃ q, q ∈ l ∧ q.1 = k ∧ p = (q.1, f q.2) := by
  induction l with
  | nil => simp [updateA_nil] at hp
  | cons q0 t ih =>
    obtain ⟨a, b⟩ := q0
    rw [updateA_cons] at hp
    by_cases hak : a = k
    · rw [if_pos hak] at hp
      rcases List.mem_cons.mp hp with h1 | h1
      · exact Or.inr ⟨(a, b), List.mem_cons_self _ _, hak, h1⟩
      · rcases ih h1 with ⟨hm, hne⟩ | ⟨q, hq, hqk, hpq⟩
        · exact Or.inl ⟨List.mem_cons_of_mem _ hm, hne⟩
        · exact Or.inr ⟨q, List.mem_cons_of_mem _ hq, hqk, hpq⟩
    · rw [if_neg hak] at hp
      rcases List.mem_cons.mp hp with h1 | h1
      · subst h1
        exact Or.inl ⟨List.mem_cons_self _ _, hak⟩
      · rcases ih h1 with ⟨hm, hne⟩ | ⟨q, hq, hqk, hpq⟩
        · exact Or.inl ⟨List.mem_cons_of_mem _ hm, hne⟩
        · exact Or.inr ⟨q, List.mem_cons_of_mem _ hq, hqk, hpq⟩

theorem hasKey_updateA {α : Type} (l : AssocL α) (k : String) (f : α → α) :
    hasKey (updateA l k f) k = hasKey l k := by
  unfold hasKey
  rw [lookupA_updateA_self]
  cases lookupA l k <;> rfl

theorem mem_ensureDir {l : AssocL ExpDir} {eid : String} {p : String × ExpDir}
    (hp : p ∈ ensureDir l eid) :
    p ∈ l ∨ p = (eid, { meta := none, runs := [] }) := by
  unfold ensureDir at hp
  cases hk : hasKey l eid with
  | true =>
    rw [hk] at hp
    exact Or.inl (by simpa using hp)
  | false =>
    rw [hk] at hp
    simp only [Bool.false_eq_true, if_false] at hp
    rcases List.mem_append.mp hp with h1 | h1
    · exact Or.inl h1
    · exact Or.inr (List.mem_singleton.mp h1)

theorem hasKey_ensureDir (l : AssocL ExpDir) (eid : String) :
    hasKey (ensureDir l eid) eid = true := by
  cases hk : hasKey l eid with
  | true => simp [ensureDir, hk]
  | false =>
    have hnone := (hasKey_eq_false_iff _ _).mp hk
    have he : ensureDir l eid = l ++ [(eid, { meta := none, runs := [] })] := by
      simp [ensureDir, hk]
    unfold hasKey
    rw [he, lookupA_append_right _ hnone, lookupA_cons, if_pos rfl]
    rfl

theorem runExists_of_good {l : AssocL ExpDir} {eid rid : String} {r : RunData}
    (h : GoodAt l eid rid r) : runExists l eid rid = true := by
  obtain ⟨hall, hkey⟩ := h
  obtain ⟨d, hd⟩ := (hasKey_eq_true_iff _ _).mp hkey
  have hr : lookupA d.runs rid = some r := (hall (eid, d) (mem_of_lookupA hd)).2 rfl
  simp [runExists, hd, hasKey, hr]

theorem good_findRun {eid rid : String} {r : RunData} :
    ∀ {l : AssocL ExpDir}, GoodAt l eid rid r → findRun l rid = some r := by
  intro l
  induction l with
  | nil => intro h; simp [GoodAt, hasKey, lookupA] at h
  | cons q t ih =>
    intro h
    obtain ⟨hall, hkey⟩ := h
    obtain ⟨a, d⟩ := q
    by_cases ha : a = eid
    · have hr := (hall (a, d) (List.mem_cons_self _ _)).2 ha
      simp [findRun, hr]
    · have hn := (hall (a, d) (List.mem_cons_self _ _)).1 ha
      have hkey2 : hasKey t eid = true := by
        unfold hasKey at hkey ⊢
        rw [lookupA_cons, if_neg ha] at hkey
        exact hkey
      simp only [findRun, hn]
      exact ih ⟨fun p hp => hall p (List.mem_cons_of_mem _ hp), hkey2⟩

theorem good_modifyRun {l : AssocL ExpDir} {eid rid : String} {r : RunData}
    (f : RunData → RunData) (h : GoodAt l eid rid r) :
    GoodAt (modifyRun l eid rid f) eid rid (f r) := by
  obtain ⟨hall, hkey⟩ := h
  constructor
  · intro p hp
    have hp2 : p ∈ updateA l eid (fun d => { d with runs := updateA d.runs rid f }) := hp
    rcases mem_updateA hp2 with ⟨hm, hne⟩ | ⟨q, hq, hqk, hpq⟩
    · exact ⟨fun _ => (hall p hm).1 hne, fun hc => absurd hc hne⟩
    · subst hpq
      refine ⟨fun hne => absurd hqk hne, fun _ => ?_⟩
      show lookupA (updateA q.2.runs rid f) rid = some (f r)
      rw [lookupA_updateA_self, (hall q hq).2 hqk]
      rfl
  · show hasKey (updateA l eid _) eid = true
    rw [hasKey_updateA]
    exact hkey

/-- Run-id freshness survives `get_or_create_experiment` (which touches
no run directory). -/
theorem fresh_after_getOrCreate (s : Store) (name rid : String)
    (h : ∀ p ∈ s.mlruns, lookupA p.2.runs rid = none) :
    ∀ p ∈ (getOrCreateExperiment s name).2.mlruns, lookupA p.2.runs rid = none := by
  cases hfind : findByName s.mlruns name with
  | some eid =>
    have h1 : getOrCreateExperiment s name = (eid, s) := by
      simp [getOrCreateExperiment, hfind]
    rw [h1]
    exact h
  | none =>
    cases hk : hasKey s.mlruns (toString s.mlruns.length) with
    | true =>
      have h1 : getOrCreateExperiment s name = (toString s.mlruns.length, { s with mlruns := setMeta s.mlruns (toString s.mlruns.length) name }) := by
        simp [getOrCreateExperiment, hfind, hk]
      rw [h1]
      intro p hp
      have hp2 : p ∈ updateA s.mlruns (toString s.mlruns.length) (fun d => { d with meta := some name }) := hp
      rcases mem_updateA hp2 with ⟨hm, _⟩ | ⟨q, hq, _, hpq⟩
      · exact h p hm
      · subst hpq
        exact h q hq
    | false =>
      have h1 : getOrCreateExperiment s name = (toString s.mlruns.length, { s with mlruns := s.mlruns ++ [(toString s.mlruns.length, ({ meta := some name, runs := [] } : ExpDir))] }) := by
        simp [getOrCreateExperiment, hfind, hk]
      rw [h1]
      intro p hp
      rcases List.mem_append.mp hp with h2 | h2
      · exact h p h2
      · rw [List.mem_singleton.mp h2]
        rfl

/-- After `start_run` with a fresh run id: the handle is active and the
run directory exists exactly under `eid`, freshly `RUNNING` and empty. -/
theorem startRun_good (s : Store) (eid rid : String)
    (hfresh : ∀ p ∈ s.mlruns, lookupA p.2.runs rid = none) :
    (startRun s eid rid).activeRun = some (eid, rid) ∧
    GoodAt (startRun s eid rid).mlruns eid rid newRun := by
  have key : ∀ (l : AssocL ExpDir), (∀ p ∈ l, lookupA p.2.runs rid = none) →
      GoodAt (updateA (ensureDir l eid) eid (fun d => { d with runs := markRunning d.runs rid })) eid rid newRun := by
    intro l hf
    have hf2 : ∀ p ∈ ensureDir l eid, lookupA p.2.runs rid = none := by
      intro p hp
      rcases mem_ensureDir hp with h2 | h2
      · exact hf p h2
      · rw [h2]
        rfl
    constructor
    · intro p hp
      rcases mem_updateA hp with ⟨hm, hne⟩ | ⟨q, hq, hqk, hpq⟩
      · exact ⟨fun _ => hf2 p hm, fun hc => absurd hc hne⟩
      · subst hpq
        refine ⟨fun hne => absurd hqk hne, fun _ => ?_⟩
        have hqnone : lookupA q.2.runs rid = none := hf2 q hq
        show lookupA (markRunning q.2.runs rid) rid = some newRun
        unfold markRunning
        rw [(hasKey_eq_false_iff _ _).mpr hqnone]
        simp only [Bool.false_eq_true, if_false]
        rw [lookupA_append_right _ hqnone, lookupA_cons, if_pos rfl]
    · show hasKey (updateA (ensureDir l eid) eid _) eid = true
      rw [hasKey_updateA]
      exact hasKey_ensureDir l eid
  cases h0 : hasKey s.mlruns "0" with
  | true =>
    have hstart : startRun s eid rid = { s with mlruns := updateA (ensureDir s.mlruns eid) eid (fun d => { d with runs := markRunning d.runs rid }), activeRun := some (eid, rid) } := by
      simp [startRun, h0]
    rw [hstart]
    exact ⟨rfl, key s.mlruns hfresh⟩
  | false =>
    have hstart : startRun s eid rid = { (getOrCreateExperiment s "default").2 with mlruns := updateA (ensureDir (getOrCreateExperiment s "default").2.mlruns eid) eid (fun d => { d with runs := markRunning d.runs rid }), activeRun := some (eid, rid) } := by
      simp [startRun, h0]
    rw [hstart]
    exact ⟨rfl, key (getOrCreateExperiment s "default").2.mlruns
      (fresh_after_getOrCreate s "default" rid hfresh)⟩

/-- One `log_param` call inside an open, well-located run. -/
theorem logParam_step {s : Store} {eid rid : String} {r : RunData}
    (k : String) (v : JsonVal) (hact : s.activeRun = some (eid, rid))
    (hgood : GoodAt s.mlruns eid rid r) :
    ∃ s2, logParam s k v = Except.ok s2 ∧ s2.activeRun = some (eid, rid) ∧
      GoodAt s2.mlruns eid rid { r with params := writeA r.params k v } := by
  have hex := runExists_of_good hgood
  refine ⟨{ s with mlruns := modifyRun s.mlruns eid rid (fun r2 => { r2 with params := writeA r2.params k v }) }, ?_, hact, ?_⟩
  · simp [logParam, hact, hex]
  · exact good_modifyRun _ hgood

/-- One `log_metric` call inside an open, well-located run. -/
theorem logMetric_step {s : Store} {eid rid : String} {r : RunData}
    (k : String) (v : JsonVal) (hact : s.activeRun = some (eid, rid))
    (hgood : GoodAt s.mlruns eid rid r) :
    ∃ s2, logMetric s k v = Except.ok s2 ∧ s2.activeRun = some (eid, rid) ∧
      GoodAt s2.mlruns eid rid { r with metrics := writeA r.metrics k v } := by
  have hex := runExists_of_good hgood
  refine ⟨{ s with mlruns := modifyRun s.mlruns eid rid (fun r2 => { r2 with metrics := writeA r2.metrics k v }) }, ?_, hact, ?_⟩
  · simp [logMetric, hact, hex]
  · exact good_modifyRun _ hgood

/-- Scope exit rewrites the run's status and keeps its location. -/
theorem finishRun_good {s : Store} {eid rid : String} {r : RunData}
    (hgood : GoodAt s.mlruns eid rid r) :
    GoodAt (finishRun s eid rid).mlruns eid rid { r with status := "FINISHED" } :=
  good_modifyRun (fun r2 => { r2 with status := "FINISHED" }) hgood

/-- C1 (amended): with a fresh run id, the run's persisted status is
`RUNNING` while the scope is open and `FINISHED` after the scope exits —
the `finally` block that persists `FINISHED` runs on both normal and
erroneous scope exit, since the source's `try` has no `except` clause. -/
theorem run_status_lifecycle (s : Store) (eid rid : String)
    (hfresh : ∀ p ∈ s.mlruns, lookupA p.2.runs rid = none) :
    runStatus (startRun s eid rid) rid = some "RUNNING" ∧
    runStatus (finishRun (startRun s eid rid) eid rid) rid = some "FINISHED" := by
  obtain ⟨hact, hgood⟩ := startRun_good s eid rid hfresh
  constructor
  · unfold runStatus
    rw [good_findRun hgood]
    rfl
  · unfold runStatus
    rw [good_findRun (finishRun_good hgood)]
    rfl

/-- Witness for the amended C1 on a fresh store. -/
theorem run_status_lifecycle_witness :
    (∀ p ∈ emptyStore.mlruns, lookupA p.2.runs "ab12cd34" = none) ∧
    (runStatus (startRun emptyStore "0" "ab12cd34") "ab12cd34" = some "RUNNING" ∧
     runStatus (finishRun (startRun emptyStore "0" "ab12cd34") "0" "ab12cd34") "ab12cd34" = some "FINISHED") :=
  ⟨by simp [emptyStore], run_status_lifecycle emptyStore "0" "ab12cd34" (by simp [emptyStore])⟩

/-- Counterexample to C1 as stated: when the scope exits via an
unrecovered error, the `finally` block of `start_run` — the only code
that runs on that exit path (`finishRun` here) — still persists status
`FINISHED`, not `FAILED`.  Concretely, after an erroneous exit of the run
`ab12cd34`, the persisted status is `FINISHED` and differs from `FAILED`. -/
theorem run_error_exit_not_failed :
    runStatus (finishRun (startRun emptyStore "0" "ab12cd34") "0" "ab12cd34") "ab12cd34" = some "FINISHED" ∧
    runStatus (finishRun (startRun emptyStore "0" "ab12cd34") "0" "ab12cd34") "ab12cd34" ≠ some "FAILED" :=
  ⟨rfl, by decide⟩

/-- C5: in a run scope with a fresh run id, logging `lr = 1/100` and then
`acc = 19/20` and exiting the scope makes `get_run_details` return
exactly those params and metrics and an empty artifact list. -/
theorem roundtrip_logging (s : Store) (eid rid : String)
    (hfresh : ∀ p ∈ s.mlruns, lookupA p.2.runs rid = none) :
    ∃ s2 s3,
      logParam (startRun s eid rid) "lr" (JsonVal.num (1 / 100)) = Except.ok s2 ∧
      logMetric s2 "acc" (JsonVal.num (19 / 20)) = Except.ok s3 ∧
      getRunDetails (finishRun s3 eid rid) rid =
        some { params := [("lr", JsonVal.num (1 / 100))],
               metrics := [("acc", JsonVal.num (19 / 20))], artifacts := [] } := by
  obtain ⟨hact, hgood⟩ := startRun_good s eid rid hfresh
  obtain ⟨s2, h2, hact2, hgood2⟩ := logParam_step "lr" (JsonVal.num (1 / 100)) hact hgood
  obtain ⟨s3, h3, hact3, hgood3⟩ := logMetric_step "acc" (JsonVal.num (19 / 20)) hact2 hgood2
  refine ⟨s2, s3, h2, h3, ?_⟩
  have hfr : findRun (finishRun s3 eid rid).mlruns rid =
      some { { { newRun with params := writeA newRun.params "lr" (JsonVal.num (1 / 100)) } with metrics := writeA { newRun with params := writeA newRun.params "lr" (JsonVal.num (1 / 100)) }.metrics "acc" (JsonVal.num (19 / 20)) } with status := "FINISHED" } :=
    good_findRun (finishRun_good hgood3)
  simp only [getRunDetails, hfr, Option.map_some]
  rfl

/-- Witness for C5 on a fresh store. -/
theorem roundtrip_logging_witness :
    (∀ p ∈ emptyStore.mlruns, lookupA p.2.runs "beef0001" = none) ∧
    (∃ s2 s3,
      logParam (startRun emptyStore "1" "beef0001") "lr" (JsonVal.num (1 / 100)) = Except.ok s2 ∧
      logMetric s2 "acc" (JsonVal.num (19 / 20)) = Except.ok s3 ∧
      getRunDetails (finishRun s3 "1" "beef0001") "beef0001" =
        some { params := [("lr", JsonVal.num (1 / 100))],
               metrics := [("acc", JsonVal.num (19 / 20))], artifacts := [] }) :=
  ⟨by simp [emptyStore], roundtrip_logging emptyStore "1" "beef0001" (by simp [emptyStore])⟩

end Runelog
